import Mathlib

/-!
Verification of the Critical Path Method (CPM) engine of the dependency-graph
component (`DependencyGraph`).  The definitions below are a shallow embedding
of the TypeScript functions `detectCycle`, `topologicalSort`,
`calculateEarliestTimes`, `calculateLatestTimes`, `findCriticalPath` and of
the UI handler `handleAddDependency`.

Modelling conventions:
* JavaScript `Map` objects are modelled as association lists with JS `Map`
  semantics: `jset` overwrites in place (keeping the key's insertion-order
  position) or appends a new binding, `jget` looks a key up.  `Map` iteration
  order is insertion order, which the association list preserves.
* The numeric fields `ls`, `lf`, `slack` can hold JavaScript `Infinity`
  (the backward pass starts `minLs` at `Infinity`), so they are modelled as
  `Option Int` with `none` standing for `Infinity`; `jsub`/`jlt` implement
  JS subtraction and `<` on such values.  `es`/`ef` are always finite and are
  plain `Int`.
* A TypeScript non-null assertion (`map.get(x)!`) followed by a member access
  crashes when the key is missing; a function containing such an access
  returns `Option` and yields `none` exactly in that case.
* The recursive DFS of `detectCycle` and the `while` loops of Kahn's
  algorithm are given fuel.  For the DFS the fuel is provably sufficient
  (see `dfs_no_fuel_out`); the Kahn loops are only ever evaluated on concrete
  inputs, where the generous fuel bound is visibly sufficient.
-/

/-- The `Project` record of `DependencyGraph` (`id`, `name`, `dependencies`,
`estimatedDays`; the optional `color` field is irrelevant to the algorithms
and omitted). -/
structure Project where
  id : Nat
  name : String
  dependencies : List Nat
  estimatedDays : Int
deriving Repr, DecidableEq

/-- The `ProjectTimes` record (`es`, `ef`, `ls`, `lf`, `slack`,
`isCritical`).  `ls`, `lf`, `slack` use `Option Int` with `none` standing for
JavaScript `Infinity`. -/
structure ProjectTimes where
  es : Int
  ef : Int
  ls : Option Int
  lf : Option Int
  slack : Option Int
  isCritical : Bool
deriving Repr, DecidableEq

/-- JS `Map.set`: overwrite the binding in place if the key exists (keeping
its position), otherwise append. -/
def jset {α : Type} : List (Nat × α) → Nat → α → List (Nat × α)
  | [], k, v => [(k, v)]
  | (k', v') :: rest, k, v =>
    if k' = k then (k, v) :: rest else (k', v') :: jset rest k v

/-- JS `Map.get`: the value bound to the key, if any. -/
def jget {α : Type} (m : List (Nat × α)) (k : Nat) : Option α :=
  (m.find? (fun e => e.fst == k)).map (·.snd)

/-- JS subtraction `a - b` where `a` may be `Infinity` (`none`) and `b` is
finite: `Infinity - b = Infinity`. -/
def jsub (a : Option Int) (b : Int) : Option Int :=
  a.map (fun x => x - b)

/-- JS `<` on values that may be `Infinity` (`none`): `Infinity < y` is
false, `x < Infinity` is true for finite `x`. -/
def jlt : Option Int → Option Int → Bool
  | none, _ => false
  | some _, none => true
  | some x, some y => decide (x < y)

/-- The adjacency map built at the top of `detectCycle` (and
`topologicalSort`): `graph.set(project.id, [...project.dependencies])` for
each project in list order, so for duplicate ids the last project wins;
`graph.get(n) || []` yields `[]` for unknown ids. -/
def projectsGraph (projects : List Project) : Nat → List Nat := fun n =>
  (projects.foldl (fun acc p => if p.id == n then some p.dependencies else acc) none).getD []

/-- Adding the candidate edge in `detectCycle`
(`graph.get(fromId)!.push(toId)` after an empty-list default): the
dependency list of `fromId` gains `toId` at the end. -/
def addEdgeG (g : Nat → List Nat) (fromId toId : Nat) : Nat → List Nat := fun n =>
  if n = fromId then g n ++ [toId] else g n

mutual

/-- The inner `hasCycleDFS` helper of `detectCycle`: three-color DFS with a
`visited` set and a `recursionStack`.  The recursion stack is restored by the
JS code whenever a call returns `false`, so it can be passed as an
environment; `visited` is threaded through.  `fuel` bounds the recursion
depth and is a model artefact (the JS recursion is unbounded); `none` means
the fuel ran out. -/
def dfs (g : Nat → List Nat) (fuel : Nat) (n : Nat) (visited stack : List Nat) :
    Option (Bool × List Nat) :=
  match fuel with
  | 0 => none
  | Nat.succ f =>
    if n ∈ stack then some (true, visited)
    else if n ∈ visited then some (false, visited)
    else dfsList g f (g n) (n :: visited) (n :: stack)
termination_by (fuel, 0)

/-- The `for (const neighbor of neighbors)` loop of `hasCycleDFS`: visit the
neighbours in order, short-circuiting on `true`. -/
def dfsList (g : Nat → List Nat) (fuel : Nat) (ws : List Nat) (visited stack : List Nat) :
    Option (Bool × List Nat) :=
  match ws with
  | [] => some (false, visited)
  | w :: rest =>
    match dfs g fuel w visited stack with
    | none => none
    | some (true, v) => some (true, v)
    | some (false, v) => dfsList g fuel rest v stack
termination_by (fuel, ws.length + 1)

end

/-- All node ids the DFS of `detectCycle projects fromId toId` can ever
touch: the start node `toId`, the node `fromId`, every project id and every
id occurring in a dependency list. -/
def dcUniverse (projects : List Project) (fromId toId : Nat) : List Nat :=
  toId :: fromId :: projects.foldr (fun p acc => p.id :: (p.dependencies ++ acc)) []

/-- Fuel given to the DFS of `detectCycle`: one more than the number of
distinct ids it can ever visit, hence provably sufficient
(`dfs_no_fuel_out`). -/
def dcFuel (projects : List Project) (fromId toId : Nat) : Nat :=
  (dcUniverse projects fromId toId).dedup.length + 1

/-- `detectCycle(projects, fromId, toId)`: build the adjacency map, add the
candidate edge `fromId -> toId`, and run `hasCycleDFS` from `toId` with empty
`visited` and `recursionStack`.  The fuel is sufficient (`dfs_no_fuel_out`),
so the `none` fallback is unreachable. -/
def detectCycle (projects : List Project) (fromId toId : Nat) : Bool :=
  match dfs (addEdgeG (projectsGraph projects) fromId toId)
      (dcFuel projects fromId toId) toId [] [] with
  | some (b, _) => b
  | none => false

/-- JS `(x || 1)` applied to `indegree.get(successorId)`: `undefined` and `0`
are falsy, so both map to `1`. -/
def jsOrOne : Option Nat → Nat
  | none => 1
  | some k => if k == 0 then 1 else k

/-- `indegree.set(depId, (indegree.get(depId) || 0) + 1)`. -/
def bumpDeg (m : List (Nat × Nat)) (d : Nat) : List (Nat × Nat) :=
  jset m d ((jget m d).getD 0 + 1)

/-- One successor update in the `while` loop of `topologicalSort` (and of
`findCriticalPath`): `newIndegree = (indegree.get(successorId) || 1) - 1`,
store it, and enqueue the successor if it reached zero. -/
def kahnStep (st : List (Nat × Nat) × List Nat) (succId : Nat) :
    List (Nat × Nat) × List Nat :=
  let nd := jsOrOne (jget st.fst succId) - 1
  (jset st.fst succId nd, if nd == 0 then st.snd ++ [succId] else st.snd)

/-- The `while (queue.length > 0)` loop shared by `topologicalSort` and
`findCriticalPath`: shift a node off the queue, append it to the order, and
update its successors.  `fuel` is a model artefact for the unbounded JS
loop; on fuel exhaustion the order collected so far is returned (the callers
pass visibly sufficient fuel on every input considered). -/
def kahnLoop (graph : List (Nat × List Nat)) :
    Nat → List Nat → List (Nat × Nat) → List Nat → List Nat
  | 0, _, _, sorted => sorted
  | _ + 1, [], _, sorted => sorted
  | fuel + 1, nodeId :: queue, indegree, sorted =>
    let st := ((jget graph nodeId).getD []).foldl kahnStep (indegree, queue)
    kahnLoop graph fuel st.snd st.fst (sorted ++ [nodeId])

/-- Total number of dependency references in a project list. -/
def depCount (projects : List Project) : Nat :=
  projects.foldl (fun a p => a + p.dependencies.length) 0

/-- `topologicalSort(projects)`: Kahn's algorithm exactly as the source
writes it.  Note that the source increments `indegree` of each *dependency*
(`indegree.set(depId, ...)`), so the queue is seeded with tasks that nothing
depends on and the produced order lists dependents before their
dependencies.  Returns `none` for `null` (order shorter, or longer, than the
project list). -/
def topologicalSort (projects : List Project) : Option (List Nat) :=
  let graph := projects.foldl (fun m p => jset m p.id p.dependencies) []
  let indegree := projects.foldl (fun m p => p.dependencies.foldl bumpDeg m)
    (projects.foldl (fun m p => jset m p.id 0) [])
  let queue := (indegree.filter (fun e => e.snd == 0)).map (·.fst)
  let sorted := kahnLoop graph (projects.length + depCount projects + 1) queue indegree []
  if sorted.length == projects.length then some sorted else none

/-- The `projectMap` built by the passes and by `findCriticalPath`
(`projects.forEach(p => projectMap.set(p.id, p))`). -/
def projectMapOf (projects : List Project) : List (Nat × Project) :=
  projects.foldl (fun m p => jset m p.id p) []

/-- The forward-pass loop of `calculateEarliestTimes`: process the ids of
`topoOrder` in order; a task with no dependencies gets `es = 0`, otherwise
`es` is the maximum `ef` of the dependencies *already present in the map*
(`if (depTimes && depTimes.ef > maxEf)` silently skips missing ones);
`ef = es + estimatedDays`; `ls`, `lf`, `slack` are initialised to `0` and
`isCritical` to `false`.  `none` models the crash of
`projectMap.get(projectId)!` on an unknown id. -/
def earliestGo (projectMap : List (Nat × Project)) :
    List Nat → List (Nat × ProjectTimes) → Option (List (Nat × ProjectTimes))
  | [], times => some times
  | projectId :: rest, times =>
    match jget projectMap projectId with
    | none => none
    | some project =>
      if project.dependencies.length == 0 then
        earliestGo projectMap rest
          (jset times projectId ⟨0, project.estimatedDays, some 0, some 0, some 0, false⟩)
      else
        let maxEf := project.dependencies.foldl
          (fun acc depId =>
            match jget times depId with
            | some depTimes => if depTimes.ef > acc then depTimes.ef else acc
            | none => acc) 0
        earliestGo projectMap rest
          (jset times projectId
            ⟨maxEf, maxEf + project.estimatedDays, some 0, some 0, some 0, false⟩)

/-- `calculateEarliestTimes(projects, topoOrder)`. -/
def calculateEarliestTimes (projects : List Project) (topoOrder : List Nat) :
    Option (List (Nat × ProjectTimes)) :=
  earliestGo (projectMapOf projects) topoOrder []

/-- The reverse adjacency map (`reverseGraph`, "who depends on me") of
`calculateLatestTimes`: every project id is first bound to `[]`, then each
project appends its own id to the list of each of its dependencies. -/
def reverseGraphOf (projects : List Project) : List (Nat × List Nat) :=
  projects.foldl
    (fun m p => p.dependencies.foldl
      (fun m2 depId => jset m2 depId ((jget m2 depId).getD [] ++ [p.id])) m)
    (projects.foldl (fun m p => jset m p.id []) [])

/-- `maxEf` as computed by `calculateLatestTimes` before its backward loop:
the maximum `ef` over the map, starting from `0`. -/
def maxEfOf (times : List (Nat × ProjectTimes)) : Int :=
  times.foldl (fun acc e => if e.snd.ef > acc then e.snd.ef else acc) 0

/-- The body of one backward-pass iteration of `calculateLatestTimes`
updating `currentTime`: if the task has no successors, `lf = maxEf`;
otherwise `lf = min(ls of the successors found by lookup)`, starting from
`Infinity` (`none`); `ls = lf - estimatedDays`; then `slack = ls - es` and
`isCritical = (slack === 0)`.  The successor lookup is abstracted so that
both the content-level and the heap-level model of the pass reuse it. -/
def backStep (lookup : Nat → Option ProjectTimes) (project : Project) (maxEf : Int)
    (successors : List Nat) (currentTime : ProjectTimes) : ProjectTimes :=
  let t1 : ProjectTimes :=
    if successors.length == 0 then
      { currentTime with lf := some maxEf, ls := some (maxEf - project.estimatedDays) }
    else
      let minLs := successors.foldl
        (fun acc succId =>
          match lookup succId with
          | some succTime => if jlt succTime.ls acc then succTime.ls else acc
          | none => acc) none
      { currentTime with lf := minLs, ls := jsub minLs project.estimatedDays }
  let t2 := { t1 with slack := jsub t1.ls t1.es }
  { t2 with isCritical := t2.slack == some 0 }

/-- The backward-pass loop of `calculateLatestTimes`, already iterating the
reversed `topoOrder`.  `none` models the crashes of
`projectMap.get(projectId)!` / `times.get(projectId)!`. -/
def latestGo (projectMap : List (Nat × Project)) (reverseGraph : List (Nat × List Nat))
    (maxEf : Int) :
    List Nat → List (Nat × ProjectTimes) → Option (List (Nat × ProjectTimes))
  | [], times => some times
  | projectId :: rest, times =>
    match jget projectMap projectId, jget times projectId with
    | some project, some currentTime =>
      latestGo projectMap reverseGraph maxEf rest
        (jset times projectId
          (backStep (jget times) project maxEf ((jget reverseGraph projectId).getD [])
            currentTime))
    | _, _ => none

/-- `calculateLatestTimes(projects, topoOrder, earliestTimes)` at the level
of map contents (`new Map(Array.from(earliestTimes.entries()))` copies the
container; `calculateLatestTimesHeap` below additionally captures that the
record objects themselves are shared). -/
def calculateLatestTimes (projects : List Project) (topoOrder : List Nat)
    (earliestTimes : List (Nat × ProjectTimes)) : Option (List (Nat × ProjectTimes)) :=
  latestGo (projectMapOf projects) (reverseGraphOf projects) (maxEfOf earliestTimes)
    topoOrder.reverse earliestTimes

/-- The heap-level model of the backward-pass loop, making JavaScript object
identity explicit: the `times` map binds ids to *references* (indices into a
heap of `ProjectTimes` records), `const currentTime = times.get(projectId)!`
fetches the reference, the field assignments mutate the record in place
(`heap.set`), and `times.set(projectId, currentTime)` re-binds the id to the
very same reference. -/
def latestGoHeap (projectMap : List (Nat × Project)) (reverseGraph : List (Nat × List Nat))
    (maxEf : Int) :
    List Nat → List (Nat × Nat) → List ProjectTimes →
      Option (List (Nat × Nat) × List ProjectTimes)
  | [], times, heap => some (times, heap)
  | projectId :: rest, times, heap =>
    match jget projectMap projectId, jget times projectId with
    | some project, some r =>
      match heap[r]? with
      | none => none
      | some currentTime =>
        latestGoHeap projectMap reverseGraph maxEf rest (jset times projectId r)
          (heap.set r
            (backStep (fun s => (jget times s).bind (fun rr => heap[rr]?)) project maxEf
              ((jget reverseGraph projectId).getD []) currentTime))
    | _, _ => none

/-- `maxEf` of the backward pass, heap-level: maximum `ef` over the records
the map's references point to. -/
def maxEfOfHeap (times : List (Nat × Nat)) (heap : List ProjectTimes) : Int :=
  times.foldl (fun acc e =>
    match heap[e.snd]? with
    | some t => if t.ef > acc then t.ef else acc
    | none => acc) 0

/-- `calculateLatestTimes` at the heap level.  The first line of the source
(`new Map(Array.from(earliestTimes.entries()))`, line 228) copies only the
container, so the bindings — and in particular the record references — are
those of the caller's map. -/
def calculateLatestTimesHeap (projects : List Project) (topoOrder : List Nat)
    (earliestTimes : List (Nat × Nat)) (heap : List ProjectTimes) :
    Option (List (Nat × Nat) × List ProjectTimes) :=
  latestGoHeap (projectMapOf projects) (reverseGraphOf projects)
    (maxEfOfHeap earliestTimes heap) topoOrder.reverse earliestTimes heap

/-- `findCriticalPath(projects, times)`: collect the ids with
`isCritical == true` in map-iteration order, restrict each one's dependency
list to critical ids, rebuild the same (inverted) indegree structure as
`topologicalSort`, and run the same queue loop.  `none` models the crash of
`projectMap.get(id)!` when a `times` key is not a project id. -/
def findCriticalPath (projects : List Project) (times : List (Nat × ProjectTimes)) :
    Option (List Nat) :=
  let criticalProjects := (times.filter (fun e => e.snd.isCritical)).map (·.fst)
  let projectMap := projectMapOf projects
  match criticalProjects.foldlM
      (fun m id => (jget projectMap id).map
        (fun p => jset m id (p.dependencies.filter (fun d => criticalProjects.contains d))))
      ([] : List (Nat × List Nat)) with
  | none => none
  | some criticalGraph =>
    let indegree := criticalGraph.foldl (fun m e => e.snd.foldl bumpDeg m)
      (criticalProjects.foldl (fun m id => jset m id 0) [])
    let queue := (indegree.filter (fun e => e.snd == 0)).map (·.fst)
    some (kahnLoop criticalGraph (times.length + projects.length + depCount projects + 1)
      queue indegree [])

/-- Outcome of the `handleAddDependency` click handler: either
`setError(msg)` was called and the handler returned, or
`onDependencyAdd(fromId, toId)` was invoked (the only way the graph
changes). -/
inductive AddDepResult where
  | err (msg : String)
  | ok (fromId toId : Nat)
deriving Repr, DecidableEq

/-- The `handleAddDependency` handler: the guards in source order.  The
first guard is JS truthiness on the selections (`!selectedFrom`), so a
missing selection or the id `0` is rejected; then the self-dependency check,
the duplicate-edge check (`projects.find` takes the first matching project),
the `detectCycle` check, and finally the `onDependencyAdd` call. -/
def handleAddDependency (projects : List Project)
    (selectedFrom selectedTo : Option Nat) : AddDepResult :=
  match selectedFrom, selectedTo with
  | some f, some t =>
    if f == 0 || t == 0 then .err "Please select both projects"
    else if f == t then .err "A project cannot depend on itself"
    else
      let fromProject := projects.find? (fun p => p.id == f)
      if (fromProject.map (fun p => p.dependencies.contains t)).getD false then
        .err "This dependency already exists"
      else if detectCycle projects f t then
        .err "Cannot add dependency: would create a circular dependency!"
      else .ok f t
  | _, _ => .err "Please select both projects"

/-! Concrete inputs used by the claim theorems, witnesses and
counterexamples. -/

/-- Scenario A of the spec: task 1 (3 days, no dependencies), task 2
(2 days, depends on 1), task 3 (4 days, depends on 1). -/
def scenarioA : List Project :=
  [⟨1, "Task 1", [], 3⟩, ⟨2, "Task 2", [1], 2⟩, ⟨3, "Task 3", [1], 4⟩]

/-- The value `calculateEarliestTimes` actually computes on Scenario A and
the order `[2, 3, 1]` returned by `topologicalSort` (established by the
claim theorems below): every `es` is `0`, because in that order no
dependency has been processed when its dependent is. -/
def tEarlyA : List (Nat × ProjectTimes) :=
  [(2, ⟨0, 2, some 0, some 0, some 0, false⟩),
   (3, ⟨0, 4, some 0, some 0, some 0, false⟩),
   (1, ⟨0, 3, some 0, some 0, some 0, false⟩)]

/-- The value `calculateLatestTimes` actually computes on Scenario A from
`tEarlyA` (established by the claim theorems below). -/
def tLateA : List (Nat × ProjectTimes) :=
  [(2, ⟨0, 2, some 2, some 4, some 2, false⟩),
   (3, ⟨0, 4, some 0, some 4, some 0, true⟩),
   (1, ⟨0, 3, some (-3), some 0, some (-3), false⟩)]

/-- A two-task chain: task 1 (5 days, no dependencies), task 2 (2 days,
depends on 1). -/
def chain52 : List Project := [⟨1, "A", [], 5⟩, ⟨2, "B", [1], 2⟩]

/-- Forward-pass output on `chain52` with the order `[2, 1]` returned by
`topologicalSort`. -/
def tEarly52 : List (Nat × ProjectTimes) :=
  [(2, ⟨0, 2, some 0, some 0, some 0, false⟩),
   (1, ⟨0, 5, some 0, some 0, some 0, false⟩)]

/-- Backward-pass output on `chain52`: slacks `3` and `-5`, so no task is
critical. -/
def tLate52 : List (Nat × ProjectTimes) :=
  [(2, ⟨0, 2, some 3, some 5, some 3, false⟩),
   (1, ⟨0, 5, some (-5), some 0, some (-5), false⟩)]

/-- A two-task chain of zero-duration milestones: task 2 depends on
task 1. -/
def chain00 : List Project := [⟨1, "A", [], 0⟩, ⟨2, "B", [1], 0⟩]

/-- Forward-pass output on `chain00` with the order `[2, 1]` returned by
`topologicalSort`. -/
def tEarly00 : List (Nat × ProjectTimes) :=
  [(2, ⟨0, 0, some 0, some 0, some 0, false⟩),
   (1, ⟨0, 0, some 0, some 0, some 0, false⟩)]

/-- Backward-pass output on `chain00`: both tasks end up critical. -/
def tLate00 : List (Nat × ProjectTimes) :=
  [(2, ⟨0, 0, some 0, some 0, some 0, true⟩),
   (1, ⟨0, 0, some 0, some 0, some 0, true⟩)]

/-- A two-task acyclic project list (task 2 depends on task 1) used for the
`detectCycle` witness. -/
def dcPs : List Project := [⟨1, "A", [], 3⟩, ⟨2, "B", [1], 2⟩]

/-- A project list in which task 1 already depends on task 2, used for the
duplicate-dependency claim. -/
def dupPs : List Project := [⟨1, "A", [2], 3⟩, ⟨2, "B", [], 2⟩]

/-- A heap of forward-pass records for Scenario A (one record per task, in
map insertion order `2, 3, 1`). -/
def heapA : List ProjectTimes :=
  [⟨0, 2, some 0, some 0, some 0, false⟩,
   ⟨0, 4, some 0, some 0, some 0, false⟩,
   ⟨0, 3, some 0, some 0, some 0, false⟩]

/-- The caller's `earliestTimes` map for Scenario A at the heap level: ids
bound to references into `heapA`. -/
def mapA : List (Nat × Nat) := [(2, 0), (3, 1), (1, 2)]

/-! Spec-side graph notions: paths and cycles of an adjacency function, used
to state what `detectCycle` decides. -/

/-- Reachability along dependency edges of an adjacency function (`b ∈ g a`
is the edge `a -> b`, "a depends on b"). -/
inductive ReachesG (g : Nat → List Nat) : Nat → Nat → Prop
  | refl (a : Nat) : ReachesG g a a
  | step {a b c : Nat} : b ∈ g a → ReachesG g b c → ReachesG g a c

/-- The adjacency function contains a (nonempty) cycle. -/
def HasCycleG (g : Nat → List Nat) : Prop :=
  ∃ a b, b ∈ g a ∧ ReachesG g b a

/-- The recursion stack `s_k :: ... :: s_1` of the DFS is a chain of edges
`s_1 -> s_2 -> ... -> s_k -> n` ending at the currently visited node. -/
def chainTo (g : Nat → List Nat) : List Nat → Nat → Prop
  | [], _ => True
  | s :: rest, n => n ∈ g s ∧ chainTo g rest s

/-- DFS invariant: every fully explored node (visited but not on the stack)
has all of its neighbours visited. -/
def INVG (g : Nat → List Nat) (visited stack : List Nat) : Prop :=
  ∀ u, u ∈ visited → u ∉ stack → ∀ w, w ∈ g u → w ∈ visited

/-- Number of ids of `U` (counted without repetition) not yet visited; the
termination measure of the DFS. -/
def whiteCount (U visited : List Nat) : Nat :=
  (U.dedup.filter (fun u => decide (u ∉ visited))).length

/-! Association-list lemmas for the JS `Map` model. -/

/-- Unfolding `jget` on a cons cell. -/
theorem jget_cons {α : Type} (k0 : Nat) (v0 : α) (rest : List (Nat × α)) (k : Nat) :
    jget ((k0, v0) :: rest) k = if k0 == k then some v0 else jget rest k := by
  cases h : k0 == k <;> simp [jget, List.find?, h]

/-- Looking up the key just written yields the written value. -/
theorem jget_jset_self {α : Type} (m : List (Nat × α)) (k : Nat) (v : α) :
    jget (jset m k v) k = some v := by
  induction m with
  | nil => simp [jset, jget_cons]
  | cons e rest ih =>
    obtain ⟨k', v'⟩ := e
    by_cases h : k' = k
    · subst h
      simp [jset, jget_cons]
    · simp [jset, h, jget_cons, ih]

/-- Writing one key leaves the other keys' lookups unchanged. -/
theorem jget_jset_ne {α : Type} (m : List (Nat × α)) (k k' : Nat) (v : α) (h : k' ≠ k) :
    jget (jset m k v) k' = jget m k' := by
  induction m with
  | nil => simp [jset, jget_cons, Ne.symm h, jget]
  | cons e rest ih =>
    obtain ⟨k0, v0⟩ := e
    by_cases h0 : k0 = k
    · subst h0
      simp [jset, jget_cons, Ne.symm h]
    · simp [jset, h0, jget_cons, ih]

/-- Re-writing the value a key already holds leaves the map unchanged
(this is what `times.set(projectId, currentTime)` does at the heap level:
the id is re-bound to the very reference it was bound to). -/
theorem jset_self_of_jget {α : Type} (m : List (Nat × α)) (k : Nat) (v : α)
    (h : jget m k = some v) : jset m k v = m := by
  induction m with
  | nil => simp [jget] at h
  | cons e rest ih =>
    obtain ⟨k0, v0⟩ := e
    rw [jget_cons] at h
    by_cases h0 : k0 = k
    · subst h0
      simp only [beq_self_eq_true, if_pos] at h
      obtain rfl : v0 = v := by simpa using h
      simp [jset]
    · rw [if_neg (by simpa using h0)] at h
      simp [jset, h0, ih h]

/-! Claim theorems: the broken pipeline (C1 - C5). -/

/-- C1: the claim states that on Scenario A the pipeline
`topologicalSort` / `calculateEarliestTimes` / `calculateLatestTimes` /
`findCriticalPath` yields ES/EF(1)=0/3, ES/EF(2)=3/5, ES/EF(3)=3/7,
LS/LF/slack(1)=0/3/0, LS/LF/slack(2)=5/7/2, LS/LF/slack(3)=3/7/0 and
critical path `[1, 3]`.  The code does not: `topologicalSort` returns the
reversed order `[2, 3, 1]`, on which the forward pass finds no dependency
times, so ES/EF(2)=0/2 (not 3/5), ES/EF(3)=0/4 (not 3/7), task 1 gets
LS = -3 and slack = -3 (not 0), and the critical path comes out as `[3]`
(not `[1, 3]`). -/
theorem scenarioA_pipeline_deviates :
    topologicalSort scenarioA = some [2, 3, 1] ∧
    calculateEarliestTimes scenarioA [2, 3, 1] = some tEarlyA ∧
    calculateLatestTimes scenarioA [2, 3, 1] tEarlyA = some tLateA ∧
    jget tLateA 2 = some ⟨0, 2, some 2, some 4, some 2, false⟩ ∧
    jget tLateA 3 = some ⟨0, 4, some 0, some 4, some 0, true⟩ ∧
    jget tLateA 1 = some ⟨0, 3, some (-3), some 0, some (-3), false⟩ ∧
    findCriticalPath scenarioA tLateA = some [3] :=
  ⟨by decide, by decide, by decide, by decide, by decide, by decide, by decide⟩

/-- C2: the claim states that on an acyclic list `topologicalSort` returns
an order in which every dependency appears before every task that depends on
it.  On `chain52` (task 2 depends on task 1) the function returns `[2, 1]`:
the dependency 1 appears *after* its dependent 2.  (The list/`null`
behaviour itself is as claimed; only the direction of the order is
inverted, because the source increments the indegree of each dependency
instead of each dependent.) -/
theorem topologicalSort_reverses_chain :
    topologicalSort chain52 = some [2, 1] ∧
    (chain52.map (fun p => (p.id, p.dependencies))) = [(1, []), (2, [1])] :=
  ⟨by decide, by decide⟩

/-- C3: the claim states ES ≤ LS and EF ≤ LF (slack ≥ 0) for every task of
an acyclic, fully resolved project list.  On Scenario A (acyclic, all
dependencies resolve), using the order returned by `topologicalSort`,
task 1 ends with ES = 0 but LS = -3 and slack = -3 < 0. -/
theorem scenarioA_negative_slack :
    topologicalSort scenarioA = some [2, 3, 1] ∧
    calculateEarliestTimes scenarioA [2, 3, 1] = some tEarlyA ∧
    calculateLatestTimes scenarioA [2, 3, 1] tEarlyA = some tLateA ∧
    jget tLateA 1 = some ⟨0, 3, some (-3), some 0, some (-3), false⟩ ∧
    jlt (some (-3)) (some 0) = true :=
  ⟨by decide, by decide, by decide, by decide, by decide⟩

/-- C4: the claim states that on a nonempty acyclic resolved list at least
one task ends with slack 0.  On `chain52` (task 1: 5 days, task 2: 2 days
depending on 1) the computed slacks are 3 and -5: no task is critical. -/
theorem chain52_no_critical_task :
    topologicalSort chain52 = some [2, 1] ∧
    calculateEarliestTimes chain52 [2, 1] = some tEarly52 ∧
    calculateLatestTimes chain52 [2, 1] tEarly52 = some tLate52 ∧
    (∀ e ∈ tLate52, e.snd.isCritical = false) :=
  ⟨by decide, by decide, by decide, by decide⟩

/-- C5: the claim states that `findCriticalPath` returns the critical ids
ordered so that a critical dependency precedes its critical dependents.  On
`chain00` both tasks are critical and task 2 depends on task 1, yet the
function returns `[2, 1]`: the dependent first.  (The *set* of returned ids
is as claimed; the order is inverted, for the same indegree inversion as in
`topologicalSort`.) -/
theorem chain00_critical_path_reversed :
    topologicalSort chain00 = some [2, 1] ∧
    calculateEarliestTimes chain00 [2, 1] = some tEarly00 ∧
    calculateLatestTimes chain00 [2, 1] tEarly00 = some tLate00 ∧
    (∀ e ∈ tLate00, e.snd.isCritical = true) ∧
    findCriticalPath chain00 tLate00 = some [2, 1] :=
  ⟨by decide, by decide, by decide, by decide, by decide⟩

/-! Claim C7: duplicate-dependency handling. -/

/-- C7 counterexample: the claim states that adding an already existing
dependency reports *no* error.  In `dupPs` task 1 already depends on task 2,
and the handler does report an error (`setError("This dependency already
exists")` followed by `return`). -/
theorem duplicate_dependency_error_reported :
    ∃ msg, handleAddDependency dupPs (some 1) (some 2) = AddDepResult.err msg :=
  ⟨"This dependency already exists", by decide⟩

/-- C7 as amended: whenever both selections are set (and nonzero, since the
handler tests JS truthiness), distinct, and the first selected project
already lists the second as a dependency, the handler reports the error
"This dependency already exists" and does not invoke `onDependencyAdd`, so
the graph is left unchanged. -/
theorem duplicate_dependency_rejected (projects : List Project) (f t : Nat) (p : Project)
    (hf : f ≠ 0) (ht : t ≠ 0) (hne : f ≠ t)
    (hfind : projects.find? (fun q => q.id == f) = some p)
    (hdup : p.dependencies.contains t = true) :
    handleAddDependency projects (some f) (some t) =
      AddDepResult.err "This dependency already exists" := by
  simp only [handleAddDependency, hfind, Option.map_some', Option.getD_some, hdup]
  rw [if_neg (by simp [hf, ht]), if_neg (by simpa using hne), if_pos trivial]

/-- Witness for `duplicate_dependency_rejected` at the concrete input
`dupPs`, selections 1 and 2. -/
theorem duplicate_dependency_rejected_witness :
    handleAddDependency dupPs (some 1) (some 2) =
      AddDepResult.err "This dependency already exists" :=
  duplicate_dependency_rejected dupPs 1 2 ⟨1, "A", [2], 3⟩
    (by decide) (by decide) (by decide) (by decide) (by decide)

/-! Claim C8: linear identities of the two passes. -/

/-- The backward-pass update does not change `es`. -/
theorem backStep_es (lookup : Nat → Option ProjectTimes) (p : Project) (m : Int)
    (s : List Nat) (ct : ProjectTimes) : (backStep lookup p m s ct).es = ct.es := by
  unfold backStep
  split <;> rfl

/-- The backward-pass update does not change `ef`. -/
theorem backStep_ef (lookup : Nat → Option ProjectTimes) (p : Project) (m : Int)
    (s : List Nat) (ct : ProjectTimes) : (backStep lookup p m s ct).ef = ct.ef := by
  unfold backStep
  split <;> rfl

/-- Both branches of the backward-pass update set
`ls = lf - estimatedDays`. -/
theorem backStep_ls_eq (lookup : Nat → Option ProjectTimes) (p : Project) (m : Int)
    (s : List Nat) (ct : ProjectTimes) :
    (backStep lookup p m s ct).ls = jsub (backStep lookup p m s ct).lf p.estimatedDays := by
  unfold backStep
  split
  · simp [jsub]
  · rfl

/-- Every record the forward-pass loop adds satisfies `ef = es + duration`
of the project that `projectMap` yields for its id, and its id comes from
the processed order; any other record was already in the accumulator. -/
theorem earliestGo_records (pm : List (Nat × Project)) (order : List Nat)
    (acc out : List (Nat × ProjectTimes)) (h : earliestGo pm order acc = some out) :
    ∀ id t, jget out id = some t →
      ((∃ p, jget pm id = some p ∧ t.ef = t.es + p.estimatedDays) ∧ id ∈ order) ∨
      jget acc id = some t := by
  induction order generalizing acc with
  | nil =>
    simp only [earliestGo, Option.some_inj] at h
    subst h
    intro id t ht
    exact Or.inr ht
  | cons pid rest ih =>
    simp only [earliestGo] at h
    cases hpm : jget pm pid <;> simp only [hpm] at h
    case none => exact absurd h (by simp)
    case some project =>
      by_cases hdep : (project.dependencies.length == 0) = true <;>
        [rw [if_pos hdep] at h; rw [if_neg hdep] at h] <;>
      · intro id t ht
        rcases ih _ h id t ht with ⟨hp, hmem⟩ | hacc
        · exact Or.inl ⟨hp, List.mem_cons_of_mem _ hmem⟩
        · by_cases hid : id = pid
          · subst hid
            rw [jget_jset_self] at hacc
            obtain rfl := Option.some_inj.mp hacc
            exact Or.inl ⟨⟨project, hpm, by simp⟩, List.mem_cons_self _ _⟩
          · rw [jget_jset_ne _ _ _ _ hid] at hacc
            exact Or.inr hacc

/-- Invariant of the backward-pass loop: every record keeps
`ef = es + duration`, and on exit every record additionally satisfies
`ls = lf - duration` (records not yet updated have their id still
scheduled). -/
theorem latestGo_records (pm : List (Nat × Project)) (rg : List (Nat × List Nat))
    (m : Int) (order : List Nat) (times out : List (Nat × ProjectTimes))
    (h : latestGo pm rg m order times = some out)
    (hinv : ∀ id t, jget times id = some t →
      (∃ p, jget pm id = some p ∧ t.ef = t.es + p.estimatedDays) ∧
      ((∃ p, jget pm id = some p ∧ t.ls = jsub t.lf p.estimatedDays) ∨ id ∈ order)) :
    ∀ id t, jget out id = some t →
      (∃ p, jget pm id = some p ∧ t.ef = t.es + p.estimatedDays) ∧
      (∃ p, jget pm id = some p ∧ t.ls = jsub t.lf p.estimatedDays) := by
  induction order generalizing times with
  | nil =>
    simp only [latestGo, Option.some_inj] at h
    subst h
    intro id t ht
    rcases hinv id t ht with ⟨h1, h2 | hmem⟩
    · exact ⟨h1, h2⟩
    · exact absurd hmem (List.not_mem_nil _)
  | cons pid rest ih =>
    simp only [latestGo] at h
    cases hpm : jget pm pid <;> simp only [hpm] at h
    case none => exact absurd h (by simp)
    case some project =>
      cases hct : jget times pid <;> simp only [hct] at h
      case none => exact absurd h (by simp)
      case some currentTime =>
        refine ih _ h ?_
        intro id t ht
        by_cases hid : id = pid
        · subst hid
          rw [jget_jset_self] at ht
          obtain rfl := Option.some_inj.mp ht
          obtain ⟨⟨p, hp, hef⟩, _⟩ := hinv _ currentTime hct
          refine ⟨⟨p, hp, ?_⟩, Or.inl ⟨project, hpm, backStep_ls_eq _ _ _ _ _⟩⟩
          rw [backStep_ef, backStep_es]
          exact hef
        · rw [jget_jset_ne _ _ _ _ hid] at ht
          rcases hinv id t ht with ⟨h1, h2 | hmem⟩
          · exact ⟨h1, Or.inl h2⟩
          · rcases List.mem_cons.mp hmem with h3 | h3
            · exact absurd h3 hid
            · exact ⟨h1, Or.inr h3⟩

/-- C8: for every project list and topological order on which the two
passes succeed, every record of the resulting map satisfies
`ef = es + estimatedDays` and `ls = lf - estimatedDays` for the project its
id denotes. -/
theorem times_linear_identities (projects : List Project) (topoOrder : List Nat)
    (tEarly tLate : List (Nat × ProjectTimes))
    (h1 : calculateEarliestTimes projects topoOrder = some tEarly)
    (h2 : calculateLatestTimes projects topoOrder tEarly = some tLate)
    (id : Nat) (t : ProjectTimes) (ht : jget tLate id = some t) :
    ∃ p, jget (projectMapOf projects) id = some p ∧
      t.ef = t.es + p.estimatedDays ∧ t.ls = jsub t.lf p.estimatedDays := by
  simp only [calculateEarliestTimes] at h1
  simp only [calculateLatestTimes] at h2
  have hfwd := earliestGo_records (projectMapOf projects) topoOrder [] tEarly h1
  have hbwd := latestGo_records (projectMapOf projects) (reverseGraphOf projects)
    (maxEfOf tEarly) topoOrder.reverse tEarly tLate h2 ?_
  · rcases hbwd id t ht with ⟨⟨p, hp, hef⟩, ⟨q, hq, hls⟩⟩
    refine ⟨p, hp, hef, ?_⟩
    rw [hp] at hq
    obtain rfl := Option.some_inj.mp hq
    exact hls
  · intro id0 t0 ht0
    rcases hfwd id0 t0 ht0 with ⟨hp, hmem⟩ | hacc
    · exact ⟨hp, Or.inr (List.mem_reverse.mpr hmem)⟩
    · exact absurd hacc (by simp [jget])

/-- Witness for `times_linear_identities`: Scenario A, task 1, whose final
record is `es = 0, ef = 3, ls = -3, lf = 0`. -/
theorem times_linear_identities_witness :
    ∃ p, jget (projectMapOf scenarioA) 1 = some p ∧
      (3 : Int) = 0 + p.estimatedDays ∧
      (some (-3) : Option Int) = jsub (some 0) p.estimatedDays :=
  times_linear_identities scenarioA [2, 3, 1] tEarlyA tLateA (by decide) (by decide) 1
    ⟨0, 3, some (-3), some 0, some (-3), false⟩ (by decide)

/-! Claim C9: the backward pass shares the caller's record objects. -/

/-- The heap-level backward pass rebinds every id to the very reference it
already had, so the map component of the result is the input map itself:
the returned map and the caller's map alias the same records. -/
theorem latestGoHeap_fst (pm : List (Nat × Project)) (rg : List (Nat × List Nat))
    (m : Int) (order : List Nat) (times : List (Nat × Nat)) (heap : List ProjectTimes)
    (out : List (Nat × Nat) × List ProjectTimes)
    (h : latestGoHeap pm rg m order times heap = some out) :
    out.fst = times := by
  induction order generalizing times heap with
  | nil =>
    simp only [latestGoHeap, Option.some_inj] at h
    rw [← h]
  | cons pid rest ih =>
    simp only [latestGoHeap] at h
    cases hpm : jget pm pid <;> simp only [hpm] at h
    case none => exact absurd h (by simp)
    case some project =>
      cases hr : jget times pid <;> simp only [hr] at h
      case none => exact absurd h (by simp)
      case some r =>
        cases hctm : heap[r]? <;> simp only [hctm] at h
        case none => exact absurd h (by simp)
        case some currentTime =>
          rw [ih _ _ h]
          exact jset_self_of_jget _ _ _ hr

/-- C9: `calculateLatestTimes` copies only the `Map` container (line 228);
the returned map holds the same `ProjectTimes` references as the caller's
`earliestTimes` map, so after the call the caller's map shows the updated
`ls`/`lf`/`slack`/`isCritical` values through those shared records. -/
theorem latestTimesHeap_shares_map (projects : List Project) (topoOrder : List Nat)
    (earliestTimes : List (Nat × Nat)) (heap : List ProjectTimes)
    (out : List (Nat × Nat) × List ProjectTimes)
    (h : calculateLatestTimesHeap projects topoOrder earliestTimes heap = some out) :
    out.fst = earliestTimes := by
  simp only [calculateLatestTimesHeap] at h
  exact latestGoHeap_fst _ _ _ _ _ _ _ h

/-- Witness for `latestTimesHeap_shares_map`: Scenario A at the heap level.
The final heap holds the backward-pass values (slack 2, 0, -3), yet the
returned map is exactly the caller's `mapA`. -/
theorem latestTimesHeap_shares_map_witness :
    ∃ out, calculateLatestTimesHeap scenarioA [2, 3, 1] mapA heapA = some out ∧
      out.fst = mapA := by
  refine ⟨(mapA,
    [⟨0, 2, some 2, some 4, some 2, false⟩,
     ⟨0, 4, some 0, some 4, some 0, true⟩,
     ⟨0, 3, some (-3), some 0, some (-3), false⟩]), by decide, ?_⟩
  exact latestTimesHeap_shares_map scenarioA [2, 3, 1] mapA heapA _ (by decide)

/-! Reachability and chain lemmas for the `detectCycle` correctness
proof. -/

/-- Reachability is transitive. -/
theorem reachesG_trans {g : Nat → List Nat} {a b c : Nat}
    (h1 : ReachesG g a b) (h2 : ReachesG g b c) : ReachesG g a c := by
  induction h1 with
  | refl _ => exact h2
  | step he _ ih => exact ReachesG.step he (ih h2)

/-- Reachability can be extended by one edge at the end. -/
theorem reachesG_snoc {g : Nat → List Nat} {a b c : Nat}
    (h1 : ReachesG g a b) (h2 : c ∈ g b) : ReachesG g a c :=
  reachesG_trans h1 (ReachesG.step h2 (ReachesG.refl c))

/-- Reachability is monotone in the edge relation. -/
theorem reachesG_mono {g g' : Nat → List Nat} (hs : ∀ n, g n ⊆ g' n) {a b : Nat}
    (h : ReachesG g a b) : ReachesG g' a b := by
  induction h with
  | refl a => exact ReachesG.refl a
  | step he _ ih => exact ReachesG.step (hs _ he) ih

/-- Every member of a chain reaches the chain's endpoint. -/
theorem chainTo_reach {g : Nat → List Nat} {stack : List Nat} {n m : Nat}
    (hc : chainTo g stack n) (hm : m ∈ stack) : ReachesG g m n := by
  induction stack generalizing n with
  | nil => exact absurd hm (List.not_mem_nil _)
  | cons s rest ih =>
    obtain ⟨he, hrest⟩ := hc
    rcases List.mem_cons.mp hm with rfl | hm'
    · exact ReachesG.step he (ReachesG.refl n)
    · exact reachesG_snoc (ih hrest hm') he

/-- If the DFS finds the current node on its own recursion stack, the graph
has a cycle. -/
theorem chainTo_cycle {g : Nat → List Nat} {stack : List Nat} {n : Nat}
    (hc : chainTo g stack n) (hn : n ∈ stack) : HasCycleG g := by
  cases stack with
  | nil => exact absurd hn (List.not_mem_nil _)
  | cons s rest =>
    obtain ⟨he, hrest⟩ := hc
    rcases List.mem_cons.mp hn with rfl | hn'
    · exact ⟨n, n, he, ReachesG.refl n⟩
    · exact ⟨s, n, he, chainTo_reach hrest hn'⟩

/-- Along an edge a rank that strictly drops forbids cycles. -/
theorem reachesG_rank {g : Nat → List Nat} (r : Nat → Nat)
    (hr : ∀ a b, b ∈ g a → r b < r a) {a b : Nat} (h : ReachesG g a b) :
    r b ≤ r a := by
  induction h with
  | refl _ => exact Nat.le_refl _
  | step he _ ih => exact Nat.le_trans ih (Nat.le_of_lt (hr _ _ he))

/-- A graph with a strictly edge-decreasing rank is acyclic. -/
theorem acyclic_of_rank (g : Nat → List Nat) (r : Nat → Nat)
    (hr : ∀ a b, b ∈ g a → r b < r a) : ¬ HasCycleG g := by
  rintro ⟨a, b, he, hreach⟩
  have h1 : r b < r a := hr _ _ he
  have h2 : r a ≤ r b := reachesG_rank r hr hreach
  omega

/-! DFS lemma suite.  Each lemma about `dfs` is proved simultaneously with
its `dfsList` companion by induction on the fuel (with an inner induction on
the neighbour list): `dfs` at fuel `f+1` calls `dfsList` at fuel `f`, and
`dfsList` calls `dfs` at the same fuel on each neighbour. -/

/-- The visited set only grows. -/
theorem dfs_mono (fuel : Nat) :
    (∀ (g : Nat → List Nat) (n : Nat) (visited stack : List Nat) (b : Bool) (v' : List Nat),
        dfs g fuel n visited stack = some (b, v') → visited ⊆ v') ∧
    (∀ (g : Nat → List Nat) (ws visited stack : List Nat) (b : Bool) (v' : List Nat),
        dfsList g fuel ws visited stack = some (b, v') → visited ⊆ v') := by
  induction fuel with
  | zero =>
    constructor
    · intro g n visited stack b v' h
      rw [dfs] at h
      exact absurd h (by simp)
    · intro g ws
      induction ws with
      | nil =>
        intro visited stack b v' h
        rw [dfsList] at h
        obtain ⟨rfl, rfl⟩ : b = false ∧ v' = visited := by
          simpa using h.symm
        exact fun a ha => ha
      | cons w rest ih =>
        intro visited stack b v' h
        rw [dfsList, dfs] at h
        exact absurd h (by simp)
  | succ f ihf =>
    have hdfs : ∀ (g : Nat → List Nat) (n : Nat) (visited stack : List Nat) (b : Bool)
        (v' : List Nat), dfs g (f + 1) n visited stack = some (b, v') → visited ⊆ v' := by
      intro g n visited stack b v' h
      rw [dfs] at h
      by_cases h1 : n ∈ stack
      · rw [if_pos h1] at h
        obtain ⟨rfl, rfl⟩ : b = true ∧ v' = visited := by simpa using h.symm
        exact fun a ha => ha
      · rw [if_neg h1] at h
        by_cases h2 : n ∈ visited
        · rw [if_pos h2] at h
          obtain ⟨rfl, rfl⟩ : b = false ∧ v' = visited := by simpa using h.symm
          exact fun a ha => ha
        · rw [if_neg h2] at h
          exact fun a ha => ihf.2 g _ _ _ _ _ h (List.mem_cons_of_mem _ ha)
    refine ⟨hdfs, ?_⟩
    intro g ws
    induction ws with
    | nil =>
      intro visited stack b v' h
      rw [dfsList] at h
      obtain ⟨rfl, rfl⟩ : b = false ∧ v' = visited := by simpa using h.symm
      exact fun a ha => ha
    | cons w rest ih =>
      intro visited stack b v' h
      rw [dfsList] at h
      cases hd : dfs g (f + 1) w visited stack with
      | none => rw [hd] at h; exact absurd h (by simp)
      | some pr =>
        obtain ⟨b1, v1⟩ := pr
        rw [hd] at h
        cases b1 with
        | true =>
          obtain ⟨rfl, rfl⟩ : b = true ∧ v' = v1 := by simpa using h.symm
          exact hdfs g w visited stack true v' hd
        | false =>
          have h2 : dfsList g (f + 1) rest v1 stack = some (b, v') := by simpa using h
          exact fun a ha => ih v1 stack b v' h2 (hdfs g w visited stack false v1 hd ha)

/-- A `false` run of the DFS preserves the exploration invariant, visits its
start node, and (in the list form) visits every listed neighbour. -/
theorem dfs_false_inv (fuel : Nat) :
    (∀ (g : Nat → List Nat) (n : Nat) (visited stack v' : List Nat),
        INVG g visited stack → dfs g fuel n visited stack = some (false, v') →
        visited ⊆ v' ∧ n ∈ v' ∧ INVG g v' stack) ∧
    (∀ (g : Nat → List Nat) (ws visited stack v' : List Nat),
        INVG g visited stack → dfsList g fuel ws visited stack = some (false, v') →
        visited ⊆ v' ∧ (∀ w ∈ ws, w ∈ v') ∧ INVG g v' stack) := by
  induction fuel with
  | zero =>
    constructor
    · intro g n visited stack v' hinv h
      rw [dfs] at h
      exact absurd h (by simp)
    · intro g ws
      induction ws with
      | nil =>
        intro visited stack v' hinv h
        rw [dfsList] at h
        obtain rfl : v' = visited := by simpa using h.symm
        exact ⟨fun a ha => ha, by simp, hinv⟩
      | cons w rest ih =>
        intro visited stack v' hinv h
        rw [dfsList, dfs] at h
        exact absurd h (by simp)
  | succ f ihf =>
    have hdfs : ∀ (g : Nat → List Nat) (n : Nat) (visited stack v' : List Nat),
        INVG g visited stack → dfs g (f + 1) n visited stack = some (false, v') →
        visited ⊆ v' ∧ n ∈ v' ∧ INVG g v' stack := by
      intro g n visited stack v' hinv h
      rw [dfs] at h
      by_cases h1 : n ∈ stack
      · rw [if_pos h1] at h
        exact absurd h (by simp)
      · rw [if_neg h1] at h
        by_cases h2 : n ∈ visited
        · rw [if_pos h2] at h
          obtain rfl : v' = visited := by simpa using h.symm
          exact ⟨fun a ha => ha, h2, hinv⟩
        · rw [if_neg h2] at h
          have hinv' : INVG g (n :: visited) (n :: stack) := by
            intro u hu hus w hw
            rcases List.mem_cons.mp hu with rfl | hu'
            · exact absurd (List.mem_cons_self _ _) hus
            · exact List.mem_cons_of_mem _
                (hinv u hu' (fun hs => hus (List.mem_cons_of_mem _ hs)) w hw)
          obtain ⟨hsub, hws, hinv2⟩ := ihf.2 g (g n) (n :: visited) (n :: stack) v' hinv' h
          refine ⟨fun a ha => hsub (List.mem_cons_of_mem _ ha),
            hsub (List.mem_cons_self _ _), ?_⟩
          intro u hu hus w hw
          by_cases hun : u = n
          · subst hun
            exact hws w hw
          · exact hinv2 u hu (by simp [List.mem_cons, hun, hus]) w hw
    refine ⟨hdfs, ?_⟩
    intro g ws
    induction ws with
    | nil =>
      intro visited stack v' hinv h
      rw [dfsList] at h
      obtain rfl : v' = visited := by simpa using h.symm
      exact ⟨fun a ha => ha, by simp, hinv⟩
    | cons w rest ih =>
      intro visited stack v' hinv h
      rw [dfsList] at h
      cases hd : dfs g (f + 1) w visited stack with
      | none => rw [hd] at h; exact absurd h (by simp)
      | some pr =>
        obtain ⟨b1, v1⟩ := pr
        rw [hd] at h
        cases b1 with
        | true => exact absurd h (by simp)
        | false =>
          have h2 : dfsList g (f + 1) rest v1 stack = some (false, v') := by simpa using h
          obtain ⟨hsub1, hw1, hinv1⟩ := hdfs g w visited stack v1 hinv hd
          obtain ⟨hsub2, hrest, hinv2⟩ := ih v1 stack v' hinv1 h2
          refine ⟨fun a ha => hsub2 (hsub1 ha), ?_, hinv2⟩
          intro x hx
          rcases List.mem_cons.mp hx with rfl | hx'
          · exact hsub2 hw1
          · exact hrest x hx'

/-- After a `false` run, every node first visited during the run has no
edge back into the recursion stack nor to the run's start node. -/
theorem dfs_false_edges (fuel : Nat) :
    (∀ (g : Nat → List Nat) (n : Nat) (visited stack v' : List Nat),
        dfs g fuel n visited stack = some (false, v') →
        ∀ u, u ∈ v' → u ∉ visited → ∀ w, w ∈ g u → w ∉ stack ∧ w ≠ n) ∧
    (∀ (g : Nat → List Nat) (ws visited stack v' : List Nat),
        dfsList g fuel ws visited stack = some (false, v') →
        (∀ u, u ∈ v' → u ∉ visited → ∀ w, w ∈ g u → w ∉ stack) ∧
        (∀ w ∈ ws, w ∉ stack)) := by
  induction fuel with
  | zero =>
    constructor
    · intro g n visited stack v' h
      rw [dfs] at h
      exact absurd h (by simp)
    · intro g ws
      induction ws with
      | nil =>
        intro visited stack v' h
        rw [dfsList] at h
        obtain rfl : v' = visited := by simpa using h.symm
        exact ⟨fun u hu hnu => absurd hu hnu, by simp⟩
      | cons w rest ih =>
        intro visited stack v' h
        rw [dfsList, dfs] at h
        exact absurd h (by simp)
  | succ f ihf =>
    have hdfs : ∀ (g : Nat → List Nat) (n : Nat) (visited stack v' : List Nat),
        dfs g (f + 1) n visited stack = some (false, v') →
        ∀ u, u ∈ v' → u ∉ visited → ∀ w, w ∈ g u → w ∉ stack ∧ w ≠ n := by
      intro g n visited stack v' h
      rw [dfs] at h
      by_cases h1 : n ∈ stack
      · rw [if_pos h1] at h
        exact absurd h (by simp)
      · rw [if_neg h1] at h
        by_cases h2 : n ∈ visited
        · rw [if_pos h2] at h
          obtain rfl : v' = visited := by simpa using h.symm
          exact fun u hu hnu => absurd hu hnu
        · rw [if_neg h2] at h
          obtain ⟨hA, hB⟩ := ihf.2 g (g n) (n :: visited) (n :: stack) v' h
          intro u hu hnu w hw
          by_cases hun : u = n
          · subst hun
            have := hB w hw
            simp only [List.mem_cons, not_or] at this
            exact ⟨this.2, this.1⟩
          · have := hA u hu (by simp [List.mem_cons, hun, hnu]) w hw
            simp only [List.mem_cons, not_or] at this
            exact ⟨this.2, this.1⟩
    refine ⟨hdfs, ?_⟩
    intro g ws
    induction ws with
    | nil =>
      intro visited stack v' h
      rw [dfsList] at h
      obtain rfl : v' = visited := by simpa using h.symm
      exact ⟨fun u hu hnu => absurd hu hnu, by simp⟩
    | cons w rest ih =>
      intro visited stack v' h
      rw [dfsList] at h
      cases hd : dfs g (f + 1) w visited stack with
      | none => rw [hd] at h; exact absurd h (by simp)
      | some pr =>
        obtain ⟨b1, v1⟩ := pr
        rw [hd] at h
        cases b1 with
        | true => exact absurd h (by simp)
        | false =>
          have h2 : dfsList g (f + 1) rest v1 stack = some (false, v') := by simpa using h
          have hwstack : w ∉ stack := by
            intro hws
            rw [dfs, if_pos hws] at hd
            exact absurd hd (by simp)
          have hmono := (dfs_mono (f + 1)).1 g w visited stack false v1 hd
          have hE1 := hdfs g w visited stack v1 hd
          obtain ⟨hA2, hB2⟩ := ih v1 stack v' h2
          constructor
          · intro u hu hnu x hx
            by_cases hu1 : u ∈ v1
            · exact (hE1 u hu1 hnu x hx).1
            · exact hA2 u hu hu1 x hx
          · intro x hx
            rcases List.mem_cons.mp hx with rfl | hx'
            · exact hwstack
            · exact hB2 x hx'

/-- A `true` run of the DFS means the graph has a cycle, provided the
recursion stack is a chain ending at the start node. -/
theorem dfs_true_cycle (fuel : Nat) :
    (∀ (g : Nat → List Nat) (n : Nat) (visited stack v' : List Nat),
        dfs g fuel n visited stack = some (true, v') → chainTo g stack n → HasCycleG g) ∧
    (∀ (g : Nat → List Nat) (ws visited stack v' : List Nat),
        dfsList g fuel ws visited stack = some (true, v') →
        (∀ w ∈ ws, chainTo g stack w) → HasCycleG g) := by
  induction fuel with
  | zero =>
    constructor
    · intro g n visited stack v' h
      rw [dfs] at h
      exact absurd h (by simp)
    · intro g ws
      induction ws with
      | nil =>
        intro visited stack v' h
        rw [dfsList] at h
        exact absurd h (by simp)
      | cons w rest ih =>
        intro visited stack v' h
        rw [dfsList, dfs] at h
        exact absurd h (by simp)
  | succ f ihf =>
    have hdfs : ∀ (g : Nat → List Nat) (n : Nat) (visited stack v' : List Nat),
        dfs g (f + 1) n visited stack = some (true, v') → chainTo g stack n →
        HasCycleG g := by
      intro g n visited stack v' h hc
      rw [dfs] at h
      by_cases h1 : n ∈ stack
      · exact chainTo_cycle hc h1
      · rw [if_neg h1] at h
        by_cases h2 : n ∈ visited
        · rw [if_pos h2] at h
          exact absurd h (by simp)
        · rw [if_neg h2] at h
          exact ihf.2 g (g n) (n :: visited) (n :: stack) v' h (fun w hw => ⟨hw, hc⟩)
    refine ⟨hdfs, ?_⟩
    intro g ws
    induction ws with
    | nil =>
      intro visited stack v' h
      rw [dfsList] at h
      exact absurd h (by simp)
    | cons w rest ih =>
      intro visited stack v' h hch
      rw [dfsList] at h
      cases hd : dfs g (f + 1) w visited stack with
      | none => rw [hd] at h; exact absurd h (by simp)
      | some pr =>
        obtain ⟨b1, v1⟩ := pr
        rw [hd] at h
        cases b1 with
        | true => exact hdfs g w visited stack v1 hd (hch w (List.mem_cons_self _ _))
        | false =>
          have h2 : dfsList g (f + 1) rest v1 stack = some (true, v') := by simpa using h
          exact ih v1 stack v' h2 (fun x hx => hch x (List.mem_cons_of_mem _ hx))

/-- Filtering by a stronger predicate yields at most as many elements. -/
theorem length_filter_imp (l : List Nat) (p q : Nat → Bool)
    (h : ∀ a, p a = true → q a = true) :
    (l.filter p).length ≤ (l.filter q).length := by
  induction l with
  | nil => simp
  | cons a rest ih =>
    rw [List.filter_cons, List.filter_cons]
    by_cases hp : p a = true
    · rw [if_pos hp, if_pos (h a hp)]
      simpa using ih
    · rw [if_neg hp]
      by_cases hq : q a = true
      · rw [if_pos hq]
        exact Nat.le_trans ih (Nat.le_succ _)
      · rw [if_neg hq]
        exact ih

/-- Growing the visited set cannot increase the number of white nodes. -/
theorem whiteCount_mono (U : List Nat) (v v' : List Nat) (h : v ⊆ v') :
    whiteCount U v' ≤ whiteCount U v := by
  unfold whiteCount
  refine length_filter_imp _ _ _ ?_
  intro a ha
  simp only [decide_eq_true_eq] at ha ⊢
  exact fun hmem => ha (h hmem)

/-- On a duplicate-free list, visiting one white node decreases the count by
exactly one. -/
theorem filter_cons_mem_length (l : List Nat) (hnd : l.Nodup) (n : Nat) (hn : n ∈ l)
    (v : List Nat) (hv : n ∉ v) :
    (l.filter (fun u => decide (u ∉ n :: v))).length + 1 =
      (l.filter (fun u => decide (u ∉ v))).length := by
  induction l with
  | nil => exact absurd hn (List.not_mem_nil _)
  | cons a rest ih =>
    obtain ⟨hna, hrest⟩ := List.nodup_cons.mp hnd
    rw [List.filter_cons, List.filter_cons]
    by_cases ha : a = n
    · subst ha
      rw [if_neg (by simp), if_pos (by simpa using hv)]
      have hcongr : rest.filter (fun u => decide (u ∉ a :: v)) =
          rest.filter (fun u => decide (u ∉ v)) := by
        refine List.filter_congr ?_
        intro u hu
        have hune : u ≠ a := fun huv => hna (huv ▸ hu)
        simp [List.mem_cons, hune]
      rw [hcongr]
      simp
    · have hn' : n ∈ rest := by
        rcases List.mem_cons.mp hn with h1 | h1
        · exact absurd h1.symm ha
        · exact h1
      have hsame : (decide (a ∉ n :: v)) = (decide (a ∉ v)) := by
        simp [List.mem_cons, ha]
      rw [hsame]
      by_cases hmem : (decide (a ∉ v)) = true
      · rw [if_pos hmem, if_pos hmem]
        have := ih hrest hn'
        simp only [List.length_cons]
        omega
      · rw [if_neg hmem, if_neg hmem]
        exact ih hrest hn'

/-- Visiting a white node of `U` decreases `whiteCount` by exactly one. -/
theorem whiteCount_cons (U : List Nat) (visited : List Nat) (n : Nat)
    (hU : n ∈ U) (hv : n ∉ visited) :
    whiteCount U (n :: visited) + 1 = whiteCount U visited :=
  filter_cons_mem_length U.dedup U.nodup_dedup n (List.mem_dedup.mpr hU) visited hv

/-- The DFS never runs out of fuel when the fuel exceeds the number of
unvisited ids of a set `U` that contains the start node and is closed under
the edge relation. -/
theorem dfs_no_fuel_out (fuel : Nat) :
    (∀ (g : Nat → List Nat) (U : List Nat) (n : Nat) (visited stack : List Nat),
        (∀ u w, w ∈ g u → w ∈ U) → n ∈ U → whiteCount U visited < fuel →
        dfs g fuel n visited stack ≠ none) ∧
    (∀ (g : Nat → List Nat) (U ws visited stack : List Nat),
        (∀ u w, w ∈ g u → w ∈ U) → (∀ w ∈ ws, w ∈ U) → whiteCount U visited < fuel →
        dfsList g fuel ws visited stack ≠ none) := by
  induction fuel with
  | zero =>
    constructor
    · intro g U n visited stack hcl hn hw
      omega
    · intro g U ws visited stack hcl hws hw
      omega
  | succ f ihf =>
    have hdfs : ∀ (g : Nat → List Nat) (U : List Nat) (n : Nat) (visited stack : List Nat),
        (∀ u w, w ∈ g u → w ∈ U) → n ∈ U → whiteCount U visited < f + 1 →
        dfs g (f + 1) n visited stack ≠ none := by
      intro g U n visited stack hcl hn hw
      rw [dfs]
      by_cases h1 : n ∈ stack
      · rw [if_pos h1]
        simp
      · rw [if_neg h1]
        by_cases h2 : n ∈ visited
        · rw [if_pos h2]
          simp
        · rw [if_neg h2]
          refine ihf.2 g U (g n) (n :: visited) (n :: stack) hcl
            (fun w hw' => hcl n w hw') ?_
          have := whiteCount_cons U visited n hn h2
          omega
    refine ⟨hdfs, ?_⟩
    intro g U ws
    induction ws with
    | nil =>
      intro visited stack hcl hws hw
      rw [dfsList]
      simp
    | cons w rest ih =>
      intro visited stack hcl hws hw
      rw [dfsList]
      cases hd : dfs g (f + 1) w visited stack with
      | none =>
        exact absurd hd (hdfs g U w visited stack hcl (hws w (List.mem_cons_self _ _)) hw)
      | some pr =>
        obtain ⟨b1, v1⟩ := pr
        cases b1 with
        | true => simp
        | false =>
          have hmono := (dfs_mono (f + 1)).1 g w visited stack false v1 hd
          have hcount := whiteCount_mono U visited v1 hmono
          simpa using ih v1 stack hcl (fun x hx => hws x (List.mem_cons_of_mem _ hx))
            (by omega)

/-- `projectsGraph` yields either `[]` or the dependency list of one of the
projects. -/
theorem projectsGraph_cases (projects : List Project) (u : Nat) :
    projectsGraph projects u = [] ∨
      ∃ p ∈ projects, projectsGraph projects u = p.dependencies := by
  unfold projectsGraph
  suffices h : ∀ init : Option (List Nat),
      (projects.foldl (fun acc p => if p.id == u then some p.dependencies else acc)
          init = init) ∨
      ∃ p ∈ projects,
        projects.foldl (fun acc p => if p.id == u then some p.dependencies else acc)
          init = some p.dependencies by
    rcases h none with h1 | ⟨p, hp, h1⟩
    · rw [h1]
      exact Or.inl rfl
    · rw [h1]
      exact Or.inr ⟨p, hp, rfl⟩
  intro init
  induction projects generalizing init with
  | nil => exact Or.inl rfl
  | cons p rest ih =>
    simp only [List.foldl_cons]
    by_cases hp : (p.id == u) = true
    · rw [if_pos hp]
      rcases ih (some p.dependencies) with h1 | ⟨q, hq, h1⟩
      · exact Or.inr ⟨p, List.mem_cons_self _ _, h1⟩
      · exact Or.inr ⟨q, List.mem_cons_of_mem _ hq, h1⟩
    · rw [if_neg hp]
      rcases ih init with h1 | ⟨q, hq, h1⟩
      · exact Or.inl h1
      · exact Or.inr ⟨q, List.mem_cons_of_mem _ hq, h1⟩

/-- Every dependency id of a listed project belongs to the DFS universe. -/
theorem mem_dcUniverse_of_dep (projects : List Project) (fromId toId : Nat)
    (p : Project) (hp : p ∈ projects) (w : Nat) (hw : w ∈ p.dependencies) :
    w ∈ dcUniverse projects fromId toId := by
  unfold dcUniverse
  refine List.mem_cons_of_mem _ (List.mem_cons_of_mem _ ?_)
  induction projects with
  | nil => exact absurd hp (List.not_mem_nil _)
  | cons q rest ih =>
    simp only [List.foldr_cons]
    rcases List.mem_cons.mp hp with rfl | hp'
    · exact List.mem_cons_of_mem _ (List.mem_append_left _ hw)
    · exact List.mem_cons_of_mem _ (List.mem_append_right _ (ih hp'))

/-- The graph searched by `detectCycle` only mentions ids of its
universe. -/
theorem addEdge_closed (projects : List Project) (fromId toId : Nat) :
    ∀ u w, w ∈ addEdgeG (projectsGraph projects) fromId toId u →
      w ∈ dcUniverse projects fromId toId := by
  intro u w hw
  have hbase : ∀ x, x ∈ projectsGraph projects u →
      x ∈ dcUniverse projects fromId toId := by
    intro x hx
    rcases projectsGraph_cases projects u with h1 | ⟨p, hp, h1⟩
    · rw [h1] at hx
      exact absurd hx (List.not_mem_nil _)
    · rw [h1] at hx
      exact mem_dcUniverse_of_dep projects fromId toId p hp x hx
  unfold addEdgeG at hw
  by_cases hu : u = fromId
  · rw [if_pos hu] at hw
    rcases List.mem_append.mp hw with h1 | h1
    · exact hbase w h1
    · obtain rfl : w = toId := by simpa using h1
      exact List.mem_cons_self _ _
  · rw [if_neg hu] at hw
    exact hbase w hw

/-- With an empty stack, a `false` DFS run leaves a visited set closed
under the edge relation, so it contains everything reachable from any of
its members. -/
theorem reach_mem_of_inv (g : Nat → List Nat) (v' : List Nat)
    (hinv : INVG g v' []) {a b : Nat} (ha : a ∈ v') (h : ReachesG g a b) :
    b ∈ v' := by
  induction h with
  | refl _ => exact ha
  | step he _ ih => exact ih (hinv _ ha (List.not_mem_nil _) _ he)

/-- Completeness half of `detectCycle`: if in the searched graph (current
edges plus the candidate edge) the node `fromId` is reachable from `toId`,
the function returns `true`. -/
theorem detectCycle_true_of_reaches (projects : List Project) (fromId toId : Nat)
    (h : ReachesG (addEdgeG (projectsGraph projects) fromId toId) toId fromId) :
    detectCycle projects fromId toId = true := by
  have hne := (dfs_no_fuel_out (dcFuel projects fromId toId)).1
    (addEdgeG (projectsGraph projects) fromId toId) (dcUniverse projects fromId toId)
    toId [] [] (addEdge_closed projects fromId toId) (List.mem_cons_self _ _)
    (by
      unfold dcFuel whiteCount
      have : (dcUniverse projects fromId toId).dedup.filter
          (fun u => decide (u ∉ ([] : List Nat))) =
          (dcUniverse projects fromId toId).dedup := by
        refine List.filter_eq_self.mpr ?_
        intro a _
        simp
      rw [this]
      omega)
  unfold detectCycle
  cases hres : dfs (addEdgeG (projectsGraph projects) fromId toId)
      (dcFuel projects fromId toId) toId [] [] with
  | none => exact absurd hres hne
  | some pr =>
    obtain ⟨b, v'⟩ := pr
    cases b with
    | true => rfl
    | false =>
      exfalso
      obtain ⟨_, hto, hinv⟩ := (dfs_false_inv (dcFuel projects fromId toId)).1
        (addEdgeG (projectsGraph projects) fromId toId) toId [] [] v'
        (fun u hu => absurd hu (List.not_mem_nil _)) hres
      have hfrom : fromId ∈ v' :=
        reach_mem_of_inv _ v' hinv hto h
      have hedge := (dfs_false_edges (dcFuel projects fromId toId)).1
        (addEdgeG (projectsGraph projects) fromId toId) toId [] [] v' hres
        fromId hfrom (List.not_mem_nil _) toId
        (by
          unfold addEdgeG
          rw [if_pos rfl]
          exact List.mem_append_right _ (List.mem_cons_self _ _))
      exact hedge.2 rfl

/-- Soundness half of `detectCycle`: a `true` answer exhibits a cycle in
the searched graph. -/
theorem detectCycle_cycle_of_true (projects : List Project) (fromId toId : Nat)
    (h : detectCycle projects fromId toId = true) :
    HasCycleG (addEdgeG (projectsGraph projects) fromId toId) := by
  unfold detectCycle at h
  cases hres : dfs (addEdgeG (projectsGraph projects) fromId toId)
      (dcFuel projects fromId toId) toId [] [] with
  | none => rw [hres] at h; exact absurd h (by simp)
  | some pr =>
    obtain ⟨b, v'⟩ := pr
    rw [hres] at h
    cases b with
    | false => exact absurd h (by simp)
    | true =>
      exact (dfs_true_cycle (dcFuel projects fromId toId)).1
        (addEdgeG (projectsGraph projects) fromId toId) toId [] [] v' hres trivial

/-- The extra edge is the only difference between the current graph and the
searched one. -/
theorem addEdge_subset (g : Nat → List Nat) (fromId toId : Nat) :
    ∀ n, g n ⊆ addEdgeG g fromId toId n := by
  intro n x hx
  unfold addEdgeG
  by_cases hn : n = fromId
  · rw [if_pos hn]
    exact List.mem_append_left _ hx
  · rw [if_neg hn]
    exact hx

/-- A path in the graph with the extra edge either avoids the extra edge or
decomposes at its first use. -/
theorem reachesG_addEdge_cases (g : Nat → List Nat) (fromId toId : Nat) {a b : Nat}
    (h : ReachesG (addEdgeG g fromId toId) a b) :
    ReachesG g a b ∨
      (ReachesG g a fromId ∧ ReachesG (addEdgeG g fromId toId) toId b) := by
  induction h with
  | refl a => exact Or.inl (ReachesG.refl a)
  | step he hrest ih =>
    rename_i x y z
    by_cases hx : x = fromId
    · have hy : y ∈ g fromId ++ [toId] := by
        simpa [addEdgeG, hx] using he
      rcases List.mem_append.mp hy with h1 | h1
      · have h1x : y ∈ g x := by rw [hx]; exact h1
        rcases ih with h2 | ⟨h2, h3⟩
        · exact Or.inl (ReachesG.step h1x h2)
        · exact Or.inr ⟨ReachesG.step h1x h2, h3⟩
      · obtain rfl : y = toId := by simpa using h1
        refine Or.inr ⟨?_, hrest⟩
        rw [hx]
        exact ReachesG.refl fromId
    · have h1 : y ∈ g x := by
        simpa [addEdgeG, hx] using he
      rcases ih with h2 | ⟨h2, h3⟩
      · exact Or.inl (ReachesG.step h1 h2)
      · exact Or.inr ⟨ReachesG.step h1 h2, h3⟩

/-- If the current graph is acyclic but the graph with the candidate edge
has a cycle, that cycle passes through the candidate edge, so `fromId` is
reachable from `toId` in the extended graph. -/
theorem hasCycle_addEdge (g : Nat → List Nat) (fromId toId : Nat)
    (hg : ¬ HasCycleG g) (h : HasCycleG (addEdgeG g fromId toId)) :
    ReachesG (addEdgeG g fromId toId) toId fromId := by
  obtain ⟨a, b, hedge, hreach⟩ := h
  have hcase : b ∈ g a ∨ (a = fromId ∧ b = toId) := by
    unfold addEdgeG at hedge
    by_cases ha : a = fromId
    · rw [if_pos ha] at hedge
      rcases List.mem_append.mp hedge with h1 | h1
      · exact Or.inl h1
      · exact Or.inr ⟨ha, by simpa using h1⟩
    · rw [if_neg ha] at hedge
      exact Or.inl hedge
  rcases hcase with hba | ⟨rfl, rfl⟩
  · rcases reachesG_addEdge_cases g fromId toId hreach with h1 | ⟨h1, h2⟩
    · exact absurd ⟨a, b, hba, h1⟩ hg
    · have h3 : ReachesG (addEdgeG g fromId toId) toId b :=
        reachesG_snoc h2 (addEdge_subset g fromId toId a hba)
      exact reachesG_trans h3 (reachesG_mono (addEdge_subset g fromId toId) h1)
  · exact hreach

/-- The two-task list `dcPs` (2 depends on 1) is acyclic: the identity rank
strictly drops along every edge. -/
theorem dcPs_acyclic : ¬ HasCycleG (projectsGraph dcPs) := by
  refine acyclic_of_rank _ (fun n => n) ?_
  intro a b hb
  have hb' : b ∈ ((if 2 == a then some [1] else if 1 == a then some [] else
      none).getD ([] : List Nat)) := hb
  show b < a
  by_cases h2 : ((2 : Nat) == a) = true
  · rw [if_pos h2] at hb'
    obtain rfl : b = 1 := by simpa using hb'
    have ha : 2 = a := by simpa using h2
    omega
  · rw [if_neg h2] at hb'
    by_cases h1 : ((1 : Nat) == a) = true
    · rw [if_pos h1] at hb'
      simp at hb'
    · rw [if_neg h1] at hb'
      simp at hb'

/-- C6: for a project list whose current dependency graph is acyclic,
`detectCycle projects fromId toId` returns `true` exactly when committing
the candidate edge (`fromId` depends on `toId`) yields a cyclic graph.
(The call is pure in this embedding, mirroring that the source copies every
dependency array — `[...project.dependencies]`, line 51 — before pushing the
temporary edge, so the `projects` argument is never mutated.) -/
theorem detectCycle_correct (projects : List Project) (fromId toId : Nat)
    (hacyc : ¬ HasCycleG (projectsGraph projects)) :
    detectCycle projects fromId toId = true ↔
      HasCycleG (addEdgeG (projectsGraph projects) fromId toId) := by
  constructor
  · exact detectCycle_cycle_of_true projects fromId toId
  · intro h
    exact detectCycle_true_of_reaches projects fromId toId
      (hasCycle_addEdge _ fromId toId hacyc h)

/-- Witness for `detectCycle_correct`: on the acyclic list `dcPs` (2 depends
on 1), proposing the edge "1 depends on 2" creates the cycle 1 -> 2 -> 1,
and `detectCycle` answers `true`. -/
theorem detectCycle_correct_witness : detectCycle dcPs 1 2 = true := by
  refine (detectCycle_correct dcPs 1 2 dcPs_acyclic).mpr ?_
  exact ⟨2, 1, by decide, ReachesG.step (by decide) (ReachesG.refl 2)⟩

/-- C10: for every project list and every id `x`, `detectCycle(projects, x,
x)` returns `true`: the temporarily inserted edge `x -> x` makes `x`
reachable from itself, and the DFS itself discovers the cycle — there is no
separate pre-traversal self-edge rejection inside `detectCycle` (that guard
exists only in `handleAddDependency`, before `detectCycle` is called). -/
theorem detectCycle_self_true (projects : List Project) (x : Nat) :
    detectCycle projects x x = true :=
  detectCycle_true_of_reaches projects x x (ReachesG.refl x)
